import Mathlib

/-!
Verification of the commitment-descriptor and transfer-composition core of
the `rgb` wallet library (`src/descriptor.rs`, `src/pay.rs`) against its
natural-language specification.

The Rust code is shallowly embedded: pure functions become Lean functions,
`&mut self` methods become explicit state passing, `Result` becomes
`Except`, `HashMap` becomes an association list, and opaque external
payloads (keys, commitments, scripts, transaction ids) become `Nat`.
Machine integers (`u64` amounts) are modelled as `Nat`: none of the
verified properties depends on wrap-around behaviour.
-/

namespace RgbCore

/-- `bpstd::Terminal`: a `(keychain, index)` derivation-path identifier.
The keychain is the raw `u8` value (`Keychain::into_inner`). -/
structure Terminal where
  keychain : Nat
  index : Nat
deriving DecidableEq, Repr

/-- `bp::dbc::tapret::TapretCommitment`: opaque commitment payload, modelled
as a natural number. -/
abbrev TapretCommitment := Nat

/-- `TapTweakAlreadyAssigned` error from `src/descriptor.rs`:
terminal derivation already has a taptweak assigned. -/
structure TapTweakAlreadyAssigned where
  terminal : Terminal
deriving DecidableEq, Repr

/-- Lookup in the tweak table (`HashMap::get`, modelled on an association
list; the list never holds two entries for one terminal, because insertion
is guarded by `contains_key`). -/
def lookupTweak : List (Terminal × TapretCommitment) → Terminal → Option TapretCommitment
  | [], _ => none
  | (t, c) :: rest, t' => if t = t' then some c else lookupTweak rest t'

/-- `TapretKey` descriptor: one internal key plus the write-once tweak
table (`HashMap<Terminal, TapretCommitment>` modelled as an association
list). -/
structure TapretKey where
  internal_key : Nat
  tweaks : List (Terminal × TapretCommitment)
deriving DecidableEq, Repr

/-- `TapretKey::add_tapret_tweak` (src/descriptor.rs lines 222-232).
The Rust method takes `&mut self` and returns `Result<(), _>`; here the
post-state is returned alongside the result.  If the terminal is already
assigned the method returns the error before touching the map, so the
post-state is the input state. -/
def TapretKey.add_tapret_tweak (d : TapretKey) (terminal : Terminal)
    (tweak : TapretCommitment) :
    Except TapTweakAlreadyAssigned Unit × TapretKey :=
  if (lookupTweak d.tweaks terminal).isSome then
    (.error ⟨terminal⟩, d)
  else
    (.ok (), { d with tweaks := (terminal, tweak) :: d.tweaks })

/-- `RgbKeychain` (src/descriptor.rs lines 59-71). -/
inductive RgbKeychain where
  | External
  | Internal
  | Rgb
  | Tapret
deriving DecidableEq, Repr

/-- The `repr(u8)` discriminants of `RgbKeychain`. -/
def RgbKeychain.toU8 : RgbKeychain → Nat
  | .External => 0
  | .Internal => 1
  | .Rgb => 9
  | .Tapret => 10

/-- `RgbKeychain::contains_rgb` on a raw keychain value. -/
def RgbKeychain.contains_rgb (k : Nat) : Bool :=
  k == RgbKeychain.Rgb.toU8 || k == RgbKeychain.Tapret.toU8

/-- `bp::dbc::Method` / `bp::seals::txout::CloseMethod`: the two
commitment closing methods. -/
inductive Method where
  | opretFirst
  | tapretFirst
deriving DecidableEq, Repr

/-- `RgbKeychain::for_method` (src/descriptor.rs lines 82-87). -/
def RgbKeychain.for_method : Method → RgbKeychain
  | .opretFirst => .Rgb
  | .tapretFirst => .Tapret

/-- `bpstd::IndexError` payload as built at src/descriptor.rs lines 97-102.
The Rust field `end` is a Lean keyword and is rendered `endIdx`. -/
structure IndexError where
  what : String
  invalid : Nat
  start : Nat
  endIdx : Nat
deriving DecidableEq, Repr

/-- `bpstd::IndexParseError`: either a wrapped `IndexError` or a failure of
the external numeric parse (`NormalIndex::from_str`). -/
inductive IndexParseError where
  | invalidIndex (e : IndexError)
  | parseFailure
deriving DecidableEq, Repr

/-- `RgbKeychain::from_str` after the external `NormalIndex` numeric parse
has succeeded (src/descriptor.rs lines 93-105): the match on the parsed
index value.  A valid `NormalIndex` is any `n < 2^31`. -/
def RgbKeychain.fromNormalIndex (n : Nat) : Except IndexParseError RgbKeychain :=
  if n = 0 then .ok .External
  else if n = 1 then .ok .Internal
  else .error (.invalidIndex ⟨ "non-standard keychain", n, 0, 1⟩)

/-- External `DeriveXOnly::derive`: derivation of the internal key at a
path, modelled as an injective pairing of key and path. -/
def deriveXOnly (key keychain index : Nat) : Nat :=
  Nat.pair key (Nat.pair keychain index)

/-- `bpstd::TapTree` as used here: `TapTree::with_single_leaf` only. -/
inductive TapTree where
  | withSingleLeaf (script : Nat)
deriving DecidableEq, Repr

/-- External `TapScript::commit(tweak)` (commit_verify crate): the leaf
script deterministically committing to the tweak payload; modelled as the
payload itself (an injective function of it). -/
def tapScriptCommit (tweak : TapretCommitment) : Nat := tweak

/-- `bpstd::DerivedScript`, restricted to the two constructors produced by
`TapretKey::derive`. -/
inductive DerivedScript where
  | taprootKeyOnly (internalKey : Nat)
  | taprootScript (internalKey : Nat) (tapTree : TapTree)
deriving DecidableEq, Repr

/-- `TapretKey::derive` (src/descriptor.rs lines 152-169): only on the
`Tapret` keychain (raw value 10) with a tweak recorded at the terminal does
derivation return the single-leaf script commitment; otherwise it returns
the key-only script. -/
def TapretKey.derive (d : TapretKey) (keychain index : Nat) : DerivedScript :=
  let terminal : Terminal := ⟨keychain, index⟩
  let internalKey := deriveXOnly d.internal_key keychain index
  if keychain = RgbKeychain.Tapret.toU8 then
    match lookupTweak d.tweaks terminal with
    | some tweak =>
        .taprootScript internalKey (.withSingleLeaf (tapScriptCommit tweak))
    | none => .taprootKeyOnly internalKey
  else
    .taprootKeyOnly internalKey

/-- External `Wpkh` descriptor: carries only its compressed key. -/
structure Wpkh where
  key : Nat
deriving DecidableEq, Repr

/-- `RgbDescr` (src/descriptor.rs lines 249-254): closed sum over the plain
witness descriptor and the commitment-capable taproot descriptor. -/
inductive RgbDescr where
  | wpkh (d : Wpkh)
  | tapretKey (d : TapretKey)
deriving DecidableEq, Repr

/-- `TapretKey::seal_close_method` (src/descriptor.rs line 220). -/
def TapretKey.seal_close_method (_ : TapretKey) : Method := .tapretFirst

/-- `RgbDescr::seal_close_method` (src/descriptor.rs lines 335-340). -/
def RgbDescr.seal_close_method : RgbDescr → Method
  | .wpkh _ => .opretFirst
  | .tapretKey d => d.seal_close_method

/-- `RgbDescr::add_tapret_tweak` (src/descriptor.rs lines 342-351).
The `Wpkh` branch panics in Rust (`panic!("adding tapret tweak to
non-taproot descriptor")`); the panic is modelled as `none`. -/
def RgbDescr.add_tapret_tweak (d : RgbDescr) (terminal : Terminal)
    (tweak : TapretCommitment) :
    Option (Except TapTweakAlreadyAssigned Unit × RgbDescr) :=
  match d with
  | .wpkh _ => none
  | .tapretKey tk =>
      let r := tk.add_tapret_tweak terminal tweak
      some (r.1, .tapretKey r.2)

/-! ## Transfer composition (`src/pay.rs`) -/

/- `rgbstd::invoice::Amount` (a `u64` wrapper) and owning seals
(outpoints carrying contract state) are both modelled as plain `Nat`
below: amounts arithmetically, seals opaquely. -/

/-- The greedy walk of src/pay.rs lines 173-186: iterate the
descending-sorted per-seal sums with a running total `sum`, including an
item while `sum` is still below the requested amount and stopping at the
first item where `sum >= amount` (`take_while` with a mutable
accumulator). -/
def greedyTakeWhile (amount : Nat) :
    List (Nat × Nat) → Nat → List (Nat × Nat)
  | [], _ => []
  | (val, s) :: rest, sum =>
      if amount ≤ sum then []
      else (val, s) :: greedyTakeWhile amount rest (sum + val)

/-- Ordered insertion before the first element with a key not below the
inserted one: the inserted element keeps its place relative to later
equal-key elements, so the fold below is a stable sort. -/
def insertBySum (p : Nat × Nat) : List (Nat × Nat) → List (Nat × Nat)
  | [] => [p]
  | q :: rest => if p.1 ≤ q.1 then p :: q :: rest else q :: insertBySum p rest

/-- `state.sort_by_key(|(sum, _, _)| *sum)` (src/pay.rs line 172): stable
ascending sort by per-seal sum, modelled as stable insertion sort (Rust's
`sort_by_key` is specified exactly as a stable sort by the key). -/
def sortBySum (state : List (Nat × Nat)) : List (Nat × Nat) :=
  state.foldr insertBySum []

/-- The coin selector of src/pay.rs lines 168-186 on the per-seal sums:
sort ascending by sum, walk in reverse (largest first), greedily include
while the running total is below the requested amount. -/
def selectSeals (amount : Nat) (state : List (Nat × Nat)) :
    List (Nat × Nat) :=
  greedyTakeWhile amount (sortBySum state).reverse 0

/-- The total of the per-seal sums of a selection. -/
def sumVals (l : List (Nat × Nat)) : Nat := (l.map (·.1)).sum

/-- Identifiers of external entities (contracts, interfaces, operations,
assignments, addresses, transaction ids), all opaque. -/
abbrev ContractId := Nat
abbrev IfaceName := Nat
abbrev OpName := Nat
abbrev AssignName := Nat
abbrev Address := Nat
abbrev Txid := Nat

/-- An output script (`bp::ScriptPubkey`): whether it is taproot-shaped,
plus opaque content. -/
structure Script where
  isP2tr : Bool
  code : Nat
deriving DecidableEq, Repr

/-- External `Address::script_pubkey()`: the script paying to an address,
modelled injectively. -/
def scriptPubkey (addr : Address) : Script := ⟨true, addr⟩

/-- `rgbstd::invoice::InvoiceState`, reduced to the distinction the code
makes: a fungible amount versus any other owned-state kind. -/
inductive InvoiceState where
  | amount (a : Nat)
  | otherKind
deriving DecidableEq, Repr

/-- `rgbstd::invoice::Beneficiary`: blinded seal or witness output. -/
inductive Beneficiary where
  | blindedSeal (s : Nat)
  | witnessVout (addr : Address)
deriving DecidableEq, Repr

/-- `rgbstd::invoice::RgbInvoice`, restricted to the fields the composition
code reads.  `expiry` is present in the invoice data model but — as the
theorems below establish — never read by composition. -/
structure RgbInvoice where
  contract : Option ContractId
  iface : Option IfaceName
  operation : Option OpName
  assignment : Option AssignName
  owned_state : InvoiceState
  beneficiary : Beneficiary
  expiry : Option Int
deriving DecidableEq, Repr

/-- Interface transition declaration: only its default assignment is read. -/
structure TransitionIface where
  default_assignment : Option AssignName
deriving DecidableEq, Repr

/-- `rgbstd` interface: only the fields read by composition. -/
structure Iface where
  default_operation : Option OpName
  transitions : List (OpName × TransitionIface)
deriving DecidableEq, Repr

/-- Lookup in the interface's transition map. -/
def lookupTransition : List (OpName × TransitionIface) → OpName → Option TransitionIface
  | [], _ => none
  | (n, t) :: rest, n' => if n = n' then some t else lookupTransition rest n'

/-- The view of one contract through an interface
(`rgbstd` `ContractIface`): `fungible(assignment, &filter)` enumerates the
fungible-state items (seal, amount) visible under the combined
wallet-ownership + contract-assignment filter.  The filter is baked into
the enumeration, as the composition code constructs it from the stock and
wallet it already holds. -/
structure ContractView where
  fungible : AssignName → List (Nat × Nat)

/-- The stock (inventory collaborator) operations read during composition,
as oracle functions; errors are the collaborator's strings. -/
structure Stock where
  iface : IfaceName → Except String Iface
  contract_iface : ContractId → IfaceName → Except String ContractView

/-- Modelled from the spec: `CompositionError` is declared in the crate
root, which is not under `src/`; per the spec the composition errors are `NoContract`,
`NoIface`, `NoOperation`, `NoAssignment`, `InsufficientState`,
`InvoiceExpired`, `TapretRequired`, `Unsupported`, plus wrapped collaborator
errors. -/
inductive CompositionError where
  | noContract
  | noIface
  | noOperation
  | noAssignment
  | insufficientState
  | invoiceExpired
  | tapretRequired
  | unsupported
  | wrapped (msg : String)
deriving DecidableEq, Repr

/-- One step of `set.entry(a.seal).or_default().push(a.state)`
(src/pay.rs lines 164-166) on a `BTreeMap` modelled as a key-sorted
association list: append the amount to the seal's entry, inserting the
seal at its sorted position when absent. -/
def insertGrouped : List (Nat × List Nat) → Nat → Nat → List (Nat × List Nat)
  | [], s, a => [(s, [a])]
  | (s', l) :: rest, s, a =>
      if s = s' then (s', l ++ [a]) :: rest
      else if s < s' then (s, [a]) :: (s', l) :: rest
      else (s', l) :: insertGrouped rest s a

/-- Src/pay.rs lines 162-171: group the fungible enumeration by owning
seal and sum each seal's amounts, producing the `(sum, seal)` vector handed
to the sorter (the per-amount list is also carried in Rust but never read
afterwards). -/
def perSealSums (items : List (Nat × Nat)) : List (Nat × Nat) :=
  (items.foldl (fun m p => insertGrouped m p.1 p.2) []).map
    (fun p => (p.2.sum, p.1))

/-- The per-invoice body of the composition loop, src/pay.rs lines 128-197:
precondition checks (contract, interface, operation, assignment), then —
only for an `Amount` owned state — the greedy seal selection, and the
collection of the invoice's witness beneficiary script if any.  Returns
the selected seals (in selection order; Rust collects them into a
`BTreeSet`, which only reorders them) and the optional beneficiary
script. -/
def processInvoice (stock : Stock) (invoice : RgbInvoice) :
    Except CompositionError (List Nat × Option Script) :=
  match invoice.contract with
  | none => .error .noContract
  | some contract_id =>
    match invoice.iface with
    | none => .error .noIface
    | some iface_name =>
      match stock.iface iface_name with
      | .error e => .error (.wrapped e)
      | .ok iface =>
        match stock.contract_iface contract_id iface_name with
        | .error e => .error (.wrapped e)
        | .ok contract =>
          match invoice.operation.or iface.default_operation with
          | none => .error .noOperation
          | some operation =>
            match invoice.assignment.or
                ((lookupTransition iface.transitions operation).bind
                  (fun t => t.default_assignment)) with
            | none => .error .noAssignment
            | some assignment_name =>
              match invoice.owned_state with
              | .amount amount =>
                  let state := perSealSums (contract.fungible assignment_name)
                  let chosen := (selectSeals amount state).map (fun p => p.2)
                  let benef := match invoice.beneficiary with
                    | .blindedSeal _ => none
                    | .witnessVout addr => some (scriptPubkey addr)
                  .ok (chosen, benef)
              | .otherKind => .error .unsupported

/-- `psrgbt::TxParams`, restricted to the field composition writes (the
change keychain, a raw keychain value) plus the opaque fee. -/
structure TxParams where
  fee : Nat
  change_keychain : Nat
deriving DecidableEq, Repr

/-- Src/pay.rs line 205:
`params.tx.change_keychain = RgbKeychain::for_method(method).into()`,
where `method = self.descriptor().seal_close_method()` (line 127). -/
def setChangeKeychain (descr : RgbDescr) (params : TxParams) : TxParams :=
  { params with
    change_keychain := (RgbKeychain.for_method descr.seal_close_method).toU8 }

/-- A PSBT output (`psrgbt`): script, value in sats, and the per-method
host flags (`is_tapret_host` / `is_opret_host` proprietary keys). -/
structure Output where
  script : Script
  value : Nat
  tapret_host : Bool
  opret_host : Bool
deriving DecidableEq, Repr

/-- Src/pay.rs lines 220-222: tag the first taproot-shaped output whose
script is not a beneficiary script as the tapret commitment host
(`outputs_mut().find(..).map(set_tapret_host)`). -/
def tagTapretHost (benefScripts : List Script) : List Output → List Output
  | [] => []
  | o :: rest =>
      if o.script.isP2tr && !(benefScripts.contains o.script) then
        { o with tapret_host := true } :: rest
      else
        o :: tagTapretHost benefScripts rest

/-- Modelled from the spec: `Psbt::sort_outputs_by` comes from the
repository's `psrgbt` crate, which is not under `src/`; per the spec the
call at src/pay.rs line 229 stable-partitions the outputs so that all
non-host outputs precede host outputs, preserving relative order within
each group. -/
def sortOutputsNonHostFirst (outs : List Output) : List Output :=
  outs.filter (fun o => !o.tapret_host) ++ outs.filter (fun o => o.tapret_host)

/-- The first index of an output carrying the given script
(the `for`/`break` loop at src/pay.rs lines 232-237 and the
`outputs().position(..)` searches). -/
def positionOfScript : List Output → Script → Option Nat
  | [], _ => none
  | o :: rest, s =>
      if o.script = s then some 0
      else (positionOfScript rest s).map (· + 1)

/-- Src/pay.rs lines 225-238: remember the change output's script, reorder
the outputs, then re-resolve the recorded change index by script equality
(first match; if no output matches, the stale index is kept, as the Rust
loop only overwrites on a match). -/
def reorderAndRelocateChange (outs : List Output) (change_vout : Option Nat) :
    List Output × Option Nat :=
  let change_script := change_vout.bind (fun v => (outs[v]?).map (fun o => o.script))
  let sorted := sortOutputsNonHostFirst outs
  let change' :=
    match change_script with
    | some s =>
        match positionOfScript sorted s with
        | some i => some i
        | none => change_vout
    | none => change_vout
  (sorted, change')

/-- The host-placement stage of composition (src/pay.rs lines 220-238):
tag the host, then reorder and re-resolve the change index. -/
def placeHost (benefScripts : List Script) (outs : List Output)
    (change_vout : Option Nat) : List Output × Option Nat :=
  reorderAndRelocateChange (tagTapretHost benefScripts outs) change_vout

/-- Modelled from the spec: `CompletionError` is declared in the crate
root, which is not under `src/`; per the spec the completion errors are `NoContract`,
`NoBeneficiaryOutput`, `InconclusiveDerivation`, `MultipleTweaks`, plus
wrapped embedding/consumption errors. -/
inductive CompletionError where
  | noContract
  | noBeneficiaryOutput
  | inconclusiveDerivation
  | multipleTweaks
  | wrapped (msg : String)
deriving DecidableEq, Repr

/-- `bp::seals::txout::ExplicitSeal` over the witness transaction: the
realized seal of a witness-output beneficiary. -/
structure ExplicitSeal where
  method : Method
  txid : Txid
  vout : Nat
deriving DecidableEq, Repr

/-- Modelled from the spec: a `Transfer` artifact is the per-contract
bundle produced by the external collaborator call
`stock.transfer(contract_id, beneficiary2, beneficiary1)`, packaging the
realized witness-output seals and the pass-through blinded seals. -/
structure Transfer where
  contract_id : ContractId
  witness_seals : List ExplicitSeal
  blinded_seals : List Nat
deriving DecidableEq, Repr

/-- `invoice_map.entry(contract_id).or_default().push(i)` (src/pay.rs line
295) on a map modelled as a first-appearance association list (the Rust
`HashMap` iterates in an unspecified order; the claims proved below do not
depend on the group order). -/
def pushGroup (m : List (ContractId × List RgbInvoice)) (cid : ContractId)
    (i : RgbInvoice) : List (ContractId × List RgbInvoice) :=
  match m with
  | [] => [(cid, [i])]
  | (c, l) :: rest =>
      if c = cid then (c, l ++ [i]) :: rest
      else (c, l) :: pushGroup rest cid i

/-- The grouping loop of src/pay.rs lines 292-296: every invoice must name
a contract (`NoContract` otherwise); invoices are grouped by contract id. -/
def groupByContract :
    List RgbInvoice → List (ContractId × List RgbInvoice) →
    Except CompletionError (List (ContractId × List RgbInvoice))
  | [], acc => .ok acc
  | i :: rest, acc =>
      match i.contract with
      | none => .error .noContract
      | some cid => groupByContract rest (pushGroup acc cid i)

/-- The per-group beneficiary resolution of src/pay.rs lines 300-322: a
witness-output beneficiary is resolved to the seal
`(method, witness txid, first output index whose script equals the
beneficiary's script)`, failing `NoBeneficiaryOutput` when no output
matches; a blinded-seal beneficiary passes through unchanged. -/
def resolveBeneficiaries (method : Method) (txid : Txid) (outs : List Output) :
    List RgbInvoice → Except CompletionError (List ExplicitSeal × List Nat)
  | [] => .ok ([], [])
  | i :: rest =>
      match i.beneficiary with
      | .witnessVout addr =>
          match positionOfScript outs (scriptPubkey addr) with
          | none => .error .noBeneficiaryOutput
          | some vout =>
              (resolveBeneficiaries method txid outs rest).map
                (fun p => (⟨method, txid, vout⟩ :: p.1, p.2))
      | .blindedSeal s =>
          (resolveBeneficiaries method txid outs rest).map
            (fun p => (p.1, s :: p.2))

/-- One iteration of the per-contract loop (src/pay.rs lines 299-327):
resolve the group's beneficiaries and package them — with the group's
contract id — into the contract's `Transfer` (the packaging stands for the
external `stock.transfer(contract_id, beneficiary2, beneficiary1)`). -/
def transferOfGroup (method : Method) (txid : Txid) (outs : List Output)
    (g : ContractId × List RgbInvoice) : Except CompletionError Transfer :=
  (resolveBeneficiaries method txid outs g.2).map (fun p => ⟨g.1, p.1, p.2⟩)

/-- The `for (contract_id, invoices) in invoice_map` loop of src/pay.rs
lines 299-328: one `Transfer` pushed per group, any error aborting the
whole call. -/
def emitTransfers (method : Method) (txid : Txid) (outs : List Output) :
    List (ContractId × List RgbInvoice) → Except CompletionError (List Transfer)
  | [] => .ok []
  | g :: gs =>
      match transferOfGroup method txid outs g with
      | .error e => .error e
      | .ok t => (emitTransfers method txid outs gs).map (fun ts => t :: ts)

/-- The transfer-emission stage of `WalletProvider::transfer` (src/pay.rs
lines 292-330): group the invoices by contract id, resolve each group's
beneficiaries against the finalized outputs, and emit one `Transfer` per
contract. -/
def transferArtifacts (method : Method) (txid : Txid) (outs : List Output)
    (invoices : List RgbInvoice) : Except CompletionError (List Transfer) :=
  match groupByContract invoices [] with
  | .error e => .error e
  | .ok groups => emitTransfers method txid outs groups

/-- Association-list lookup into the grouped invoices, used to state the
grouping correctness theorem. -/
def lookupGroup : List (ContractId × List RgbInvoice) → ContractId →
    Option (List RgbInvoice)
  | [], _ => none
  | (c, l) :: rest, c' => if c = c' then some l else lookupGroup rest c'

/-- Specification-side check that an invoice's witness beneficiary (if
any) has a matching finalized output. -/
def witnessScriptPresent (outs : List Output) (i : RgbInvoice) : Bool :=
  match i.beneficiary with
  | .witnessVout addr => (positionOfScript outs (scriptPubkey addr)).isSome
  | .blindedSeal _ => true

/-- Specification-side characterization of the resolved witness-output
seals of a list of invoices: each witness beneficiary maps to the seal at
the first finalized output whose script equals the beneficiary's script. -/
def specWitnessSeals (method : Method) (txid : Txid) (outs : List Output)
    (invs : List RgbInvoice) : List ExplicitSeal :=
  invs.filterMap (fun i =>
    match i.beneficiary with
    | .witnessVout addr =>
        (positionOfScript outs (scriptPubkey addr)).map
          (fun v => ⟨method, txid, v⟩)
    | .blindedSeal _ => none)

/-- Specification-side characterization of the pass-through blinded
seals of a list of invoices. -/
def specBlindedSeals (invs : List RgbInvoice) : List Nat :=
  invs.filterMap (fun i =>
    match i.beneficiary with
    | .blindedSeal s => some s
    | .witnessVout _ => none)

/-! ## Theorems -/

theorem sumVals_nil : sumVals [] = 0 := rfl

theorem sumVals_cons (p : Nat × Nat) (l : List (Nat × Nat)) :
    sumVals (p :: l) = p.1 + sumVals l := by
  simp [sumVals]

theorem greedyTakeWhile_cons (amount : Nat) (v : Nat) (s : Nat)
    (rest : List (Nat × Nat)) (sum : Nat) :
    greedyTakeWhile amount ((v, s) :: rest) sum =
      if amount ≤ sum then []
      else (v, s) :: greedyTakeWhile amount rest (sum + v) := rfl

theorem sumVals_insertBySum (p : Nat × Nat) (l : List (Nat × Nat)) :
    sumVals (insertBySum p l) = p.1 + sumVals l := by
  induction l with
  | nil => simp [insertBySum, sumVals]
  | cons q rest ih =>
      by_cases h : p.1 ≤ q.1
      · simp [insertBySum, h, sumVals_cons]
      · rw [show insertBySum p (q :: rest) = q :: insertBySum p rest by
              simp [insertBySum, h],
          sumVals_cons, ih, sumVals_cons]
        omega

theorem sumVals_sortBySum (l : List (Nat × Nat)) :
    sumVals (sortBySum l) = sumVals l := by
  induction l with
  | nil => rfl
  | cons p rest ih =>
      simp only [sortBySum, List.foldr_cons] at ih ⊢
      rw [sumVals_insertBySum, ih, sumVals_cons]

theorem sumVals_reverse (l : List (Nat × Nat)) :
    sumVals l.reverse = sumVals l := by
  unfold sumVals
  rw [List.map_reverse, List.sum_reverse]

/-- The greedy walk reaches the requested amount whenever enough is
available: if the accumulator plus everything remaining reaches the
amount, the accumulator plus what the walk takes reaches it too. -/
theorem greedy_sum_reaches (amount : Nat) :
    ∀ (l : List (Nat × Nat)) (sum0 : Nat),
      amount ≤ sum0 + sumVals l →
      amount ≤ sum0 + sumVals (greedyTakeWhile amount l sum0)
  | [], sum0, h => h
  | (v, s) :: rest, sum0, h => by
      rw [greedyTakeWhile_cons]
      by_cases hs : amount ≤ sum0
      · rw [if_pos hs, sumVals_nil]
        omega
      · rw [if_neg hs, sumVals_cons]
        rw [sumVals_cons] at h
        have ih := greedy_sum_reaches amount rest (sum0 + v) (by omega)
        omega

/-- Every proper prefix the greedy walk builds is still short of the
amount: dropping the last taken element leaves the accumulated total
below the requested amount. -/
theorem greedy_dropLast_below (amount : Nat) :
    ∀ (l : List (Nat × Nat)) (sum0 : Nat),
      greedyTakeWhile amount l sum0 ≠ [] →
      sum0 + sumVals (greedyTakeWhile amount l sum0).dropLast < amount
  | [], sum0, h => absurd rfl h
  | (v, s) :: rest, sum0, h => by
      rw [greedyTakeWhile_cons] at h ⊢
      by_cases hs : amount ≤ sum0
      · exact absurd (if_pos hs) h
      · rw [if_neg hs]
        by_cases hrest : greedyTakeWhile amount rest (sum0 + v) = []
        · rw [hrest]
          simp only [List.dropLast_single, sumVals_nil]
          omega
        · rw [List.dropLast_cons_of_ne_nil hrest, sumVals_cons]
          have ih := greedy_dropLast_below amount rest (sum0 + v) hrest
          omega

/-- C3: Greedy selection: with seals sorted ascending by per-seal sum and
walked largest-first, a seal is included exactly while the running total
before its inclusion is below the requested amount; consequently, if the
per-seal sums total at least the amount, the chosen subset totals at least
the amount, and when more than one seal was chosen, removing the
last-added seal drops the total below the amount. -/
theorem C3_greedy_selection (amount : Nat) (state : List (Nat × Nat))
    (hsuff : amount ≤ sumVals state) :
    amount ≤ sumVals (selectSeals amount state) ∧
    (1 < (selectSeals amount state).length →
      sumVals (selectSeals amount state).dropLast < amount) := by
  have hsum : sumVals ((sortBySum state).reverse) = sumVals state := by
    rw [sumVals_reverse, sumVals_sortBySum]
  constructor
  · have h := greedy_sum_reaches amount ((sortBySum state).reverse) 0
      (by rw [hsum]; simpa using hsuff)
    simpa [selectSeals] using h
  · intro hlen
    have hne : greedyTakeWhile amount ((sortBySum state).reverse) 0 ≠ [] := by
      intro hempty
      rw [selectSeals, hempty] at hlen
      simp at hlen
    have h := greedy_dropLast_below amount ((sortBySum state).reverse) 0 hne
    simpa [selectSeals] using h

/-- Witness for C3 at Scenario A of the spec: amount 50 with per-seal sums
30 and 80 selects only the 80-sum seal, whose total meets the amount. -/
theorem C3_greedy_selection_witness :
    (50 : Nat) ≤ sumVals [(30, 0), (80, 1)] ∧
    50 ≤ sumVals (selectSeals 50 [(30, 0), (80, 1)]) ∧
    selectSeals 50 [(30, 0), (80, 1)] = [(80, 1)] :=
  ⟨by decide,
   (C3_greedy_selection 50 [(30, 0), (80, 1)] (by decide)).1,
   by decide⟩

/-- C1: Write-once tweak table: for every descriptor state, terminal `t`
and commitment `c`, `add_tapret_tweak t c` on the `TapretKey` variant
succeeds whenever the tweak table has no entry for `t` (and records `c`
there), and when an entry for `t` already exists it fails with
`TapTweakAlreadyAssigned t` and leaves the whole tweak table, including
the previously stored commitment at `t`, unchanged. -/
theorem C1_add_tapret_tweak_write_once (d : TapretKey) (t : Terminal)
    (c : TapretCommitment) :
    (lookupTweak d.tweaks t = none →
      (d.add_tapret_tweak t c).1 = .ok () ∧
      lookupTweak ((d.add_tapret_tweak t c).2).tweaks t = some c) ∧
    (∀ c0, lookupTweak d.tweaks t = some c0 →
      (d.add_tapret_tweak t c).1 = .error ⟨t⟩ ∧
      (d.add_tapret_tweak t c).2 = d ∧
      lookupTweak ((d.add_tapret_tweak t c).2).tweaks t = some c0) := by
  constructor
  · intro h
    simp [TapretKey.add_tapret_tweak, h, lookupTweak]
  · intro c0 h
    simp [TapretKey.add_tapret_tweak, h]

/-- Witness for C1 at concrete inputs: a vacant terminal accepts the tweak
and an occupied terminal rejects it, keeping the old commitment. -/
theorem C1_add_tapret_tweak_write_once_witness :
    ((TapretKey.add_tapret_tweak ⟨0, []⟩ ⟨10, 0⟩ 5).1 = .ok () ∧
      lookupTweak ((TapretKey.add_tapret_tweak ⟨0, []⟩ ⟨10, 0⟩ 5).2).tweaks
        ⟨10, 0⟩ = some 5) ∧
    ((TapretKey.add_tapret_tweak ⟨0, [(⟨10, 0⟩, 7)]⟩ ⟨10, 0⟩ 5).1 =
        .error ⟨⟨10, 0⟩⟩ ∧
      (TapretKey.add_tapret_tweak ⟨0, [(⟨10, 0⟩, 7)]⟩ ⟨10, 0⟩ 5).2 =
        ⟨0, [(⟨10, 0⟩, 7)]⟩ ∧
      lookupTweak
        ((TapretKey.add_tapret_tweak ⟨0, [(⟨10, 0⟩, 7)]⟩ ⟨10, 0⟩ 5).2).tweaks
        ⟨10, 0⟩ = some 7) :=
  ⟨(C1_add_tapret_tweak_write_once ⟨0, []⟩ ⟨10, 0⟩ 5).1 (by decide),
   (C1_add_tapret_tweak_write_once ⟨0, [(⟨10, 0⟩, 7)]⟩ ⟨10, 0⟩ 5).2 7 (by decide)⟩

/-- C2 counterexample: the `Rgb` keychain (9) is commitment-bearing, yet
with a tweak stored at terminal `(9, 0)` the derivation still returns the
plain key-only script, not the script-committed form: `derive` checks only
the `Tapret` keychain (10). -/
theorem C2_derive_counterexample :
    RgbKeychain.contains_rgb 9 = true ∧
    lookupTweak (TapretKey.mk 0 [(⟨9, 0⟩, 7)]).tweaks ⟨9, 0⟩ = some 7 ∧
    TapretKey.derive ⟨0, [(⟨9, 0⟩, 7)]⟩ 9 0 =
      .taprootKeyOnly (deriveXOnly 0 9 0) := by
  decide

/-- C2 as amended: derivation returns the single-leaf script commitment
exactly on the `Tapret` keychain (10) with a tweak stored at the terminal;
with no tweak at the terminal, or on any other keychain (including the
commitment-bearing `Rgb` keychain 9), it returns the plain key-only
script; and `derive` at any terminal other than the inserted one is
unaffected by a tweak insertion. -/
theorem C2_derive_correct (d : TapretKey) (kc idx : Nat) :
    (∀ c, kc = RgbKeychain.Tapret.toU8 →
      lookupTweak d.tweaks ⟨kc, idx⟩ = some c →
      d.derive kc idx =
        .taprootScript (deriveXOnly d.internal_key kc idx)
          (.withSingleLeaf (tapScriptCommit c))) ∧
    (lookupTweak d.tweaks ⟨kc, idx⟩ = none ∨ kc ≠ RgbKeychain.Tapret.toU8 →
      d.derive kc idx = .taprootKeyOnly (deriveXOnly d.internal_key kc idx)) ∧
    (∀ t c, (⟨kc, idx⟩ : Terminal) ≠ t →
      ((d.add_tapret_tweak t c).2).derive kc idx = d.derive kc idx) := by
  refine ⟨?_, ?_, ?_⟩
  · intro c hkc hc
    subst hkc
    simp [TapretKey.derive, hc]
  · rintro (hc | hkc)
    · simp [TapretKey.derive, hc]
    · simp [TapretKey.derive, hkc]
  · intro t c hne
    have hlk : lookupTweak ((t, c) :: d.tweaks) ⟨kc, idx⟩ =
        lookupTweak d.tweaks ⟨kc, idx⟩ := by
      simp [lookupTweak, (Ne.symm hne)]
    unfold TapretKey.add_tapret_tweak
    by_cases h : (lookupTweak d.tweaks t).isSome
    · simp [h]
    · simp [h, TapretKey.derive, hlk]

/-- Witness for C2 at concrete inputs: keychain 10 with a stored tweak
derives the committed script; keychain 9 with the same table derives the
key-only script; and inserting at `(9, 1)` leaves derivation at `(10, 0)`
unchanged. -/
theorem C2_derive_correct_witness :
    (TapretKey.derive ⟨0, [(⟨10, 0⟩, 7)]⟩ 10 0 =
      .taprootScript (deriveXOnly 0 10 0)
        (.withSingleLeaf (tapScriptCommit 7))) ∧
    (TapretKey.derive ⟨0, [(⟨10, 0⟩, 7)]⟩ 9 0 =
      .taprootKeyOnly (deriveXOnly 0 9 0)) ∧
    (((TapretKey.add_tapret_tweak ⟨0, [(⟨10, 0⟩, 7)]⟩ ⟨9, 1⟩ 5).2).derive 10 0 =
      TapretKey.derive ⟨0, [(⟨10, 0⟩, 7)]⟩ 10 0) :=
  ⟨(C2_derive_correct ⟨0, [(⟨10, 0⟩, 7)]⟩ 10 0).1 7 rfl (by decide),
   (C2_derive_correct ⟨0, [(⟨10, 0⟩, 7)]⟩ 9 0).2.1 (Or.inr (by decide)),
   (C2_derive_correct ⟨0, [(⟨10, 0⟩, 7)]⟩ 10 0).2.2 ⟨9, 1⟩ 5 (by decide)⟩

/-- C8: Closing-method dispatch: `seal_close_method` returns `OpretFirst`
for every `Wpkh` variant and `TapretFirst` for every `TapretKey` variant;
`for_method` totally maps `OpretFirst` to `Rgb` (9) and `TapretFirst` to
`Tapret` (10); and composition sets the change keychain to exactly
`for_method` of the descriptor's closing method. -/
theorem C8_close_method_dispatch :
    (∀ w, RgbDescr.seal_close_method (.wpkh w) = .opretFirst) ∧
    (∀ tk, RgbDescr.seal_close_method (.tapretKey tk) = .tapretFirst) ∧
    RgbKeychain.for_method .opretFirst = .Rgb ∧
    RgbKeychain.for_method .tapretFirst = .Tapret ∧
    RgbKeychain.Rgb.toU8 = 9 ∧ RgbKeychain.Tapret.toU8 = 10 ∧
    (∀ descr params, (setChangeKeychain descr params).change_keychain =
      (RgbKeychain.for_method descr.seal_close_method).toU8) := by
  refine ⟨fun w => rfl, fun tk => rfl, rfl, rfl, rfl, rfl, fun descr params => rfl⟩

/-- C9: Non-commitment variant tweak safety: `add_tapret_tweak` on the
`Wpkh` variant panics (modelled as `none`) for every terminal and
commitment, and on the `TapretKey` variant the panic branch is never
taken. -/
theorem C9_wpkh_add_tweak_panics :
    (∀ w t c, RgbDescr.add_tapret_tweak (.wpkh w) t c = none) ∧
    (∀ tk t c, (RgbDescr.add_tapret_tweak (.tapretKey tk) t c).isSome = true) := by
  exact ⟨fun w t c => rfl, fun tk t c => rfl⟩

/-- C10: Keychain parsing is narrower than the keychain enumeration:
after the external numeric parse, only index 0 maps to `External` and
index 1 to `Internal`; every other valid index — including 9 (`Rgb`) and
10 (`Tapret`) — yields the non-standard-keychain error, so the two
RGB-reserved keychains are representable but never parseable. -/
theorem C10_from_str_narrow (n : Nat) (h2 : 2 ≤ n) (hlt : n < 2 ^ 31) :
    RgbKeychain.fromNormalIndex 0 = .ok .External ∧
    RgbKeychain.fromNormalIndex 1 = .ok .Internal ∧
    RgbKeychain.fromNormalIndex n =
      .error (.invalidIndex ⟨ "non-standard keychain", n, 0, 1⟩) ∧
    (∀ m, RgbKeychain.fromNormalIndex m ≠ .ok .Rgb) ∧
    (∀ m, RgbKeychain.fromNormalIndex m ≠ .ok .Tapret) := by
  have hn0 : n ≠ 0 := by omega
  have hn1 : n ≠ 1 := by omega
  refine ⟨rfl, rfl, by simp [RgbKeychain.fromNormalIndex, hn0, hn1], ?_, ?_⟩
  · intro m
    unfold RgbKeychain.fromNormalIndex
    split
    · simp
    · split <;> simp
  · intro m
    unfold RgbKeychain.fromNormalIndex
    split
    · simp
    · split <;> simp

/-- Witness for C10 at the concrete index 9: the reserved `Rgb` keychain
value is rejected by parsing. -/
theorem C10_from_str_narrow_witness :
    2 ≤ 9 ∧ (9 : Nat) < 2 ^ 31 ∧
    RgbKeychain.fromNormalIndex 9 =
      .error (.invalidIndex ⟨ "non-standard keychain", 9, 0, 1⟩) :=
  ⟨by decide, by decide, (C10_from_str_narrow 9 (by decide) (by decide)).2.2.1⟩

/-- C7 counterexample: an invoice whose expiry is already in the past (any
timestamp; the composition code never reads the field) composes
successfully instead of failing with `InvoiceExpired`. -/
theorem C7_expired_invoice_composes :
    (RgbInvoice.mk (some 1) (some 1) none none (.amount 50) (.blindedSeal 0)
        (some 0)).expiry = some 0 ∧
    processInvoice
      ⟨fun _ => .ok ⟨some 1, [(1, ⟨some 2⟩)]⟩,
       fun _ _ => .ok ⟨fun _ => [(0, 100)]⟩⟩
      ⟨some 1, some 1, none, none, .amount 50, .blindedSeal 0, some 0⟩ =
      .ok ([0], none) :=
  ⟨rfl, rfl⟩

/-- C7 as amended: for every invoice, composition fails with `NoContract`
when the contract id is absent, `NoIface` when the interface name is
absent, `NoOperation` when neither the invoice nor the interface default
supplies an operation, `NoAssignment` when neither the invoice nor the
operation's default supplies an assignment — each raised before the seal
selection for that invoice (the conclusions hold for every fungible-state
oracle) — and an invoice whose owned state is not an `Amount` fails with
`Unsupported`; the composition never returns `InvoiceExpired` and never
reads the invoice's expiry. -/
theorem C7_precondition_errors (stock : Stock) (inv : RgbInvoice) :
    (inv.contract = none → processInvoice stock inv = .error .noContract) ∧
    (∀ cid, inv.contract = some cid → inv.iface = none →
      processInvoice stock inv = .error .noIface) ∧
    (∀ cid ifn ifc cv, inv.contract = some cid → inv.iface = some ifn →
      stock.iface ifn = .ok ifc →
      stock.contract_iface cid ifn = .ok cv →
      inv.operation.or ifc.default_operation = none →
      processInvoice stock inv = .error .noOperation) ∧
    (∀ cid ifn ifc cv op, inv.contract = some cid → inv.iface = some ifn →
      stock.iface ifn = .ok ifc →
      stock.contract_iface cid ifn = .ok cv →
      inv.operation.or ifc.default_operation = some op →
      inv.assignment.or ((lookupTransition ifc.transitions op).bind
        (fun t => t.default_assignment)) = none →
      processInvoice stock inv = .error .noAssignment) ∧
    (∀ cid ifn ifc cv op asg, inv.contract = some cid → inv.iface = some ifn →
      stock.iface ifn = .ok ifc →
      stock.contract_iface cid ifn = .ok cv →
      inv.operation.or ifc.default_operation = some op →
      inv.assignment.or ((lookupTransition ifc.transitions op).bind
        (fun t => t.default_assignment)) = some asg →
      inv.owned_state = .otherKind →
      processInvoice stock inv = .error .unsupported) ∧
    (processInvoice stock inv ≠ .error .invoiceExpired) ∧
    (∀ e, processInvoice stock { inv with expiry := e } =
      processInvoice stock inv) := by
  refine ⟨?_, ?_, ?_, ?_, ?_, ?_, ?_⟩
  · intro h
    simp [processInvoice, h]
  · intro cid h hi
    simp [processInvoice, h, hi]
  · intro cid ifn ifc cv h hi hs hc hop
    simp [processInvoice, h, hi, hs, hc, hop]
  · intro cid ifn ifc cv op h hi hs hc hop hasg
    simp [processInvoice, h, hi, hs, hc, hop, hasg]
  · intro cid ifn ifc cv op asg h hi hs hc hop hasg hst
    simp [processInvoice, h, hi, hs, hc, hop, hasg, hst]
  · intro h
    unfold processInvoice at h
    repeat' split at h
    all_goals simp_all
  · intro e
    cases inv
    rfl

/-- Witness for C7 at concrete inputs: each precondition failure is
exhibited on a concrete invoice and stock. -/
theorem C7_precondition_errors_witness :
    (processInvoice
        ⟨fun _ => .ok ⟨none, []⟩, fun _ _ => .ok ⟨fun _ => []⟩⟩
        ⟨none, some 1, none, none, .amount 5, .blindedSeal 0, none⟩ =
      .error .noContract) ∧
    (processInvoice
        ⟨fun _ => .ok ⟨none, []⟩, fun _ _ => .ok ⟨fun _ => []⟩⟩
        ⟨some 1, none, none, none, .amount 5, .blindedSeal 0, none⟩ =
      .error .noIface) ∧
    (processInvoice
        ⟨fun _ => .ok ⟨none, []⟩, fun _ _ => .ok ⟨fun _ => []⟩⟩
        ⟨some 1, some 1, none, none, .amount 5, .blindedSeal 0, none⟩ =
      .error .noOperation) ∧
    (processInvoice
        ⟨fun _ => .ok ⟨some 1, []⟩, fun _ _ => .ok ⟨fun _ => []⟩⟩
        ⟨some 1, some 1, none, none, .amount 5, .blindedSeal 0, none⟩ =
      .error .noAssignment) ∧
    (processInvoice
        ⟨fun _ => .ok ⟨some 1, [(1, ⟨some 2⟩)]⟩, fun _ _ => .ok ⟨fun _ => []⟩⟩
        ⟨some 1, some 1, none, none, .otherKind, .blindedSeal 0, none⟩ =
      .error .unsupported) ∧
    (processInvoice
        ⟨fun _ => .ok ⟨some 1, [(1, ⟨some 2⟩)]⟩, fun _ _ => .ok ⟨fun _ => []⟩⟩
        ⟨some 1, some 1, none, none, .amount 5, .blindedSeal 0, some 7⟩ =
      processInvoice
        ⟨fun _ => .ok ⟨some 1, [(1, ⟨some 2⟩)]⟩, fun _ _ => .ok ⟨fun _ => []⟩⟩
        ⟨some 1, some 1, none, none, .amount 5, .blindedSeal 0, none⟩) :=
  ⟨(C7_precondition_errors _ _).1 rfl,
   (C7_precondition_errors _ _).2.1 1 rfl rfl,
   (C7_precondition_errors _ _).2.2.1 1 1 ⟨none, []⟩ ⟨fun _ => []⟩
     rfl rfl rfl rfl rfl,
   (C7_precondition_errors _ _).2.2.2.1 1 1 ⟨some 1, []⟩ ⟨fun _ => []⟩ 1
     rfl rfl rfl rfl rfl rfl,
   (C7_precondition_errors _ _).2.2.2.2.1 1 1 ⟨some 1, [(1, ⟨some 2⟩)]⟩
     ⟨fun _ => []⟩ 1 2 rfl rfl rfl rfl rfl rfl rfl,
   (C7_precondition_errors
     ⟨fun _ => .ok ⟨some 1, [(1, ⟨some 2⟩)]⟩, fun _ _ => .ok ⟨fun _ => []⟩⟩
     ⟨some 1, some 1, none, none, .amount 5, .blindedSeal 0, none⟩).2.2.2.2.2.2
     (some 7)⟩

/-- C4, the latent gap: at Scenario B of the spec (one invoice requesting
amount 50, per-seal sums 10 and 20) the composition code selects every
seal, ends with a selected total of 30 < 50, and returns successfully —
it never produces `InsufficientState`. -/
theorem C4_no_insufficiency_check :
    processInvoice
      ⟨fun _ => .ok ⟨some 1, [(1, ⟨some 2⟩)]⟩,
       fun _ _ => .ok ⟨fun _ => [(7, 10), (8, 20)]⟩⟩
      ⟨some 1, some 1, none, none, .amount 50, .blindedSeal 0, none⟩ =
      .ok ([8, 7], none) ∧
    sumVals (selectSeals 50 (perSealSums [(7, 10), (8, 20)])) < 50 :=
  ⟨rfl, by decide⟩

theorem tagTapretHost_cons (b : List Script) (o : Output) (rest : List Output) :
    tagTapretHost b (o :: rest) =
      if o.script.isP2tr && !(b.contains o.script) then
        { o with tapret_host := true } :: rest
      else o :: tagTapretHost b rest := rfl

theorem tag_scripts_eq (b : List Script) :
    ∀ l : List Output, (tagTapretHost b l).map (fun o => o.script) =
      l.map (fun o => o.script)
  | [] => rfl
  | o :: rest => by
      rw [tagTapretHost_cons]
      split
      · simp
      · simp [tag_scripts_eq b rest]

theorem tag_get_script (b : List Script) (l : List Output) (v : Nat) :
    ((tagTapretHost b l)[v]?).map (fun o => o.script) =
      (l[v]?).map (fun o => o.script) := by
  rw [← List.getElem?_map, tag_scripts_eq b l, List.getElem?_map]

theorem filter_hosts_nil (l : List Output)
    (h : ∀ o ∈ l, o.tapret_host = false) :
    l.filter (fun o => o.tapret_host) = [] := by
  induction l with
  | nil => rfl
  | cons o rest ih =>
      have ho := h o (by simp)
      rw [List.filter_cons_of_neg (by simp [ho])]
      exact ih (fun o' ho' => h o' (by simp [ho']))

theorem tag_at_most_one_host (b : List Script) :
    ∀ l : List Output, (∀ o ∈ l, o.tapret_host = false) →
      ((tagTapretHost b l).filter (fun o => o.tapret_host)).length ≤ 1
  | [], _ => by simp [tagTapretHost]
  | o :: rest, h => by
      have hrest : rest.filter (fun o => o.tapret_host) = [] :=
        filter_hosts_nil rest (fun o' ho' => h o' (by simp [ho']))
      have ho := h o (by simp)
      rw [tagTapretHost_cons]
      split
      · simp [List.filter_cons, hrest]
      · have ih := tag_at_most_one_host b rest
          (fun o' ho' => h o' (by simp [ho']))
        simpa [List.filter_cons, ho] using ih

theorem tag_host_pred (b : List Script) :
    ∀ l : List Output, (∀ o ∈ l, o.tapret_host = false) →
      ∀ o ∈ tagTapretHost b l, o.tapret_host = true →
        o.script.isP2tr = true ∧ b.contains o.script = false
  | [], _, o, ho, _ => by simp [tagTapretHost] at ho
  | q :: rest, h, o, ho, htrue => by
      rw [tagTapretHost_cons] at ho
      split at ho
      next hp =>
        have hp2 := hp
        rw [Bool.and_eq_true] at hp2
        have hp' : q.script.isP2tr = true ∧ b.contains q.script = false := by
          refine ⟨hp2.1, ?_⟩
          have hB := hp2.2
          simpa using hB
        rcases List.mem_cons.mp ho with rfl | hmem
        · exact hp'
        · exact absurd htrue (by simp [h o (by simp [hmem])])
      next hp =>
        rcases List.mem_cons.mp ho with rfl | hmem
        · exact absurd htrue (by simp [h o (by simp)])
        · exact tag_host_pred b rest (fun o' ho' => h o' (by simp [ho']))
            o hmem htrue

theorem positionOfScript_found :
    ∀ (l : List Output) (s : Script), s ∈ l.map (fun o => o.script) →
      ∃ i, positionOfScript l s = some i
  | [], s, h => by simp at h
  | o :: rest, s, h => by
      by_cases he : o.script = s
      · exact ⟨0, by simp [positionOfScript, he]⟩
      · have hmem : s ∈ rest.map (fun o => o.script) := by
          rcases List.mem_map.mp h with ⟨o', ho', rfl⟩
          rcases List.mem_cons.mp ho' with rfl | hr
          · exact absurd rfl he
          · exact List.mem_map.mpr ⟨o', hr, rfl⟩
        obtain ⟨i, hi⟩ := positionOfScript_found rest s hmem
        exact ⟨i + 1, by simp [positionOfScript, he, hi]⟩

theorem positionOfScript_correct :
    ∀ (l : List Output) (s : Script) (i : Nat),
      positionOfScript l s = some i →
      ∃ o, l[i]? = some o ∧ o.script = s
  | [], s, i, h => by simp [positionOfScript] at h
  | o :: rest, s, i, h => by
      by_cases he : o.script = s
      · rw [positionOfScript, if_pos he] at h
        injection h with h'
        exact ⟨o, by rw [← h']; simp, he⟩
      · rw [positionOfScript, if_neg he] at h
        rcases Option.map_eq_some'.mp h with ⟨j, hj, rfl⟩
        obtain ⟨o', ho', hs⟩ := positionOfScript_correct rest s j hj
        exact ⟨o', by simpa using ho', hs⟩

theorem mem_sortOutputs (o : Output) (l : List Output) :
    o ∈ sortOutputsNonHostFirst l ↔ o ∈ l := by
  unfold sortOutputsNonHostFirst
  by_cases h : o.tapret_host <;> simp [List.mem_filter, h]

theorem sortOutputs_hosts_last (l : List Output) (i j : Nat) (oi oj : Output)
    (hi : (sortOutputsNonHostFirst l)[i]? = some oi)
    (hj : (sortOutputsNonHostFirst l)[j]? = some oj)
    (hosti : oi.tapret_host = true) (hostj : oj.tapret_host = false) :
    j < i := by
  have hiA : (l.filter (fun o => !o.tapret_host)).length ≤ i := by
    by_contra hlt
    push_neg at hlt
    rw [sortOutputsNonHostFirst, List.getElem?_append_left hlt] at hi
    have hmem : oi ∈ l.filter (fun o => !o.tapret_host) :=
      List.getElem?_mem hi
    have := (List.mem_filter.mp hmem).2
    simp [hosti] at this
  have hjA : j < (l.filter (fun o => !o.tapret_host)).length := by
    by_contra hge
    push_neg at hge
    rw [sortOutputsNonHostFirst, List.getElem?_append_right hge] at hj
    have hmem : oj ∈ l.filter (fun o => o.tapret_host) :=
      List.getElem?_mem hj
    have := (List.mem_filter.mp hmem).2
    simp [hostj] at this
  omega

/-- C5: Host placement and change re-resolution: starting from freshly
constructed (untagged) outputs, at most one output is tagged as the
taproot commitment host, and a tagged output is taproot-shaped with a
non-beneficiary script; after the deterministic reorder every non-host
output precedes every host output with relative order preserved within
each group (the reordered list is exactly the stable partition); and if a
change output existed before the reorder, the recorded change index
afterwards is the index of an output whose script equals the original
change script. -/
theorem C5_host_placement (benef : List Script) (outs : List Output)
    (cv : Option Nat) (hclean : ∀ o ∈ outs, o.tapret_host = false) :
    (((tagTapretHost benef outs).filter (fun o => o.tapret_host)).length ≤ 1 ∧
      (∀ o ∈ tagTapretHost benef outs, o.tapret_host = true →
        o.script.isP2tr = true ∧ benef.contains o.script = false)) ∧
    ((placeHost benef outs cv).1 =
      (tagTapretHost benef outs).filter (fun o => !o.tapret_host) ++
        (tagTapretHost benef outs).filter (fun o => o.tapret_host)) ∧
    (∀ (i j : Nat) (oi oj : Output),
      ((placeHost benef outs cv).1)[i]? = some oi →
      ((placeHost benef outs cv).1)[j]? = some oj →
      oi.tapret_host = true → oj.tapret_host = false → j < i) ∧
    (∀ v o, cv = some v → outs[v]? = some o →
      ∃ i o', (placeHost benef outs cv).2 = some i ∧
        ((placeHost benef outs cv).1)[i]? = some o' ∧
        o'.script = o.script) := by
  refine ⟨⟨tag_at_most_one_host benef outs hclean,
    tag_host_pred benef outs hclean⟩, rfl, ?_, ?_⟩
  · intro i j oi oj hi hj h1 h2
    exact sortOutputs_hosts_last (tagTapretHost benef outs) i j oi oj hi hj h1 h2
  · intro v o hcv ho
    subst hcv
    have hts := tag_get_script benef outs v
    rw [ho] at hts
    obtain ⟨o2, ho2, hso2⟩ : ∃ o2, (tagTapretHost benef outs)[v]? = some o2 ∧
        o2.script = o.script := by
      cases hg : (tagTapretHost benef outs)[v]? with
      | none => rw [hg] at hts; simp at hts
      | some o2 =>
          rw [hg] at hts
          simp only [Option.map_some'] at hts
          exact ⟨o2, rfl, by injection hts⟩
    have hmem : o2 ∈ sortOutputsNonHostFirst (tagTapretHost benef outs) :=
      (mem_sortOutputs _ _).mpr (List.getElem?_mem ho2)
    have hscript : o.script ∈
        (sortOutputsNonHostFirst (tagTapretHost benef outs)).map
          (fun o => o.script) :=
      List.mem_map.mpr ⟨o2, hmem, hso2⟩
    obtain ⟨i, hi⟩ := positionOfScript_found _ _ hscript
    obtain ⟨o', ho', hs'⟩ := positionOfScript_correct _ _ _ hi
    refine ⟨i, o', ?_, ho', hs'⟩
    have hcs : ((tagTapretHost benef outs)[v]?).map (fun o => o.script) =
        some o.script := by
      rw [ho2, Option.map_some', hso2]
    show (reorderAndRelocateChange (tagTapretHost benef outs) (some v)).2 = some i
    unfold reorderAndRelocateChange
    simp only [Option.some_bind, hcs, hi]

/-- Witness for C5 at a concrete PSBT: two taproot outputs, the first a
beneficiary and the second the change; the change output becomes the host
and the change index is re-resolved to an output with the change script. -/
theorem C5_host_placement_witness :
    (∀ o ∈ [(⟨⟨true, 5⟩, 100, false, false⟩ : Output),
        ⟨⟨true, 9⟩, 50, false, false⟩], o.tapret_host = false) ∧
    (∃ i o',
      (placeHost [⟨true, 5⟩]
        [⟨⟨true, 5⟩, 100, false, false⟩, ⟨⟨true, 9⟩, 50, false, false⟩]
        (some 1)).2 = some i ∧
      ((placeHost [⟨true, 5⟩]
        [⟨⟨true, 5⟩, 100, false, false⟩, ⟨⟨true, 9⟩, 50, false, false⟩]
        (some 1)).1)[i]? = some o' ∧
      o'.script = (⟨true, 9⟩ : Script)) :=
  ⟨by decide,
   (by
      obtain ⟨i, o', h1, h2, h3⟩ :=
        (C5_host_placement [⟨true, 5⟩]
          [⟨⟨true, 5⟩, 100, false, false⟩, ⟨⟨true, 9⟩, 50, false, false⟩]
          (some 1) (by decide)).2.2.2 1 ⟨⟨true, 9⟩, 50, false, false⟩
          rfl (by simp)
      exact ⟨i, o', h1, h2, h3⟩)⟩

theorem lookupGroup_pushGroup (cid : ContractId) (i : RgbInvoice) :
    ∀ (m : List (ContractId × List RgbInvoice)) (c : ContractId),
      lookupGroup (pushGroup m cid i) c =
        if c = cid then some ((lookupGroup m cid).getD [] ++ [i])
        else lookupGroup m c
  | [], c => by
      by_cases h : c = cid
      · subst h
        simp [pushGroup, lookupGroup]
      · have h' : cid ≠ c := Ne.symm h
        simp [pushGroup, lookupGroup, h, h']
  | (k, l) :: rest, c => by
      by_cases hk : k = cid
      · subst hk
        by_cases hc : c = k
        · subst hc
          simp [pushGroup, lookupGroup]
        · have hc' : k ≠ c := Ne.symm hc
          simp [pushGroup, lookupGroup, hc, hc']
      · by_cases hc : k = c
        · subst hc
          have hk' : k ≠ cid := hk
          have hck : ¬(k = cid) := hk
          simp [pushGroup, lookupGroup, hck, Ne.symm hk]
        · simp [pushGroup, lookupGroup, hk, hc,
            lookupGroup_pushGroup cid i rest c]

theorem keys_pushGroup (cid : ContractId) (i : RgbInvoice) :
    ∀ m : List (ContractId × List RgbInvoice),
      (pushGroup m cid i).map Prod.fst =
        if cid ∈ m.map Prod.fst then m.map Prod.fst
        else m.map Prod.fst ++ [cid]
  | [] => by simp [pushGroup]
  | (k, l) :: rest => by
      by_cases hk : k = cid
      · subst hk
        simp [pushGroup]
      · have ih := keys_pushGroup cid i rest
        have hk' : cid ≠ k := Ne.symm hk
        by_cases hmem : cid ∈ rest.map Prod.fst
        · simp [pushGroup, hk, ih, hmem, hk']
        · simp [pushGroup, hk, ih, hmem, hk']

theorem keys_pushGroup_nodup (cid : ContractId) (i : RgbInvoice)
    (m : List (ContractId × List RgbInvoice))
    (h : (m.map Prod.fst).Nodup) :
    ((pushGroup m cid i).map Prod.fst).Nodup := by
  rw [keys_pushGroup]
  split
  · exact h
  · next hni => simp [List.nodup_append, h, hni]

theorem mem_keys_pushGroup (cid : ContractId) (i : RgbInvoice)
    (m : List (ContractId × List RgbInvoice)) (c : ContractId) :
    c ∈ (pushGroup m cid i).map Prod.fst ↔
      c ∈ m.map Prod.fst ∨ c = cid := by
  rw [keys_pushGroup]
  split
  · next hin =>
      constructor
      · exact Or.inl
      · rintro (h | rfl)
        · exact h
        · exact hin
  · simp

theorem lookupGroup_of_mem :
    ∀ (m : List (ContractId × List RgbInvoice)) (c : ContractId)
      (l : List RgbInvoice), (c, l) ∈ m → (m.map Prod.fst).Nodup →
      lookupGroup m c = some l
  | (k, l') :: rest, c, l, hmem, hnd => by
      rcases List.mem_cons.mp hmem with heq | hrest
      · injection heq with h1 h2
        subst h1; subst h2
        simp [lookupGroup]
      · have hk : k ≠ c := by
          intro hkc
          subst hkc
          have : k ∈ rest.map Prod.fst :=
            List.mem_map.mpr ⟨(k, l), hrest, rfl⟩
          exact (List.nodup_cons.mp (by simpa using hnd)).1 this
        rw [lookupGroup, if_neg hk]
        exact lookupGroup_of_mem rest c l hrest
          (List.nodup_cons.mp (by simpa using hnd)).2

theorem groupByContract_isOk :
    ∀ (invs : List RgbInvoice) (acc : List (ContractId × List RgbInvoice)),
      (∀ i ∈ invs, i.contract ≠ none) →
      ∃ gs, groupByContract invs acc = .ok gs
  | [], acc, _ => ⟨acc, rfl⟩
  | i :: rest, acc, h => by
      cases hc : i.contract with
      | none => exact absurd hc (h i (by simp))
      | some cid =>
          obtain ⟨gs, hgs⟩ := groupByContract_isOk rest (pushGroup acc cid i)
            (fun j hj => h j (by simp [hj]))
          exact ⟨gs, by simp [groupByContract, hc, hgs]⟩

theorem groupByContract_keys_nodup :
    ∀ (invs : List RgbInvoice) (acc gs : List (ContractId × List RgbInvoice)),
      groupByContract invs acc = .ok gs →
      (acc.map Prod.fst).Nodup → (gs.map Prod.fst).Nodup
  | [], acc, gs, hgs, hnd => by
      injection hgs with h
      exact h ▸ hnd
  | i :: rest, acc, gs, hgs, hnd => by
      cases hc : i.contract with
      | none => rw [groupByContract, hc] at hgs; exact absurd hgs (by simp)
      | some cid =>
          rw [groupByContract, hc] at hgs
          exact groupByContract_keys_nodup rest (pushGroup acc cid i) gs hgs
            (keys_pushGroup_nodup cid i acc hnd)

theorem groupByContract_keys_mem :
    ∀ (invs : List RgbInvoice) (acc gs : List (ContractId × List RgbInvoice)),
      groupByContract invs acc = .ok gs →
      ∀ c, c ∈ gs.map Prod.fst ↔
        c ∈ acc.map Prod.fst ∨ some c ∈ invs.map (fun i => i.contract)
  | [], acc, gs, hgs, c => by
      injection hgs with h
      subst h
      simp
  | i :: rest, acc, gs, hgs, c => by
      cases hc : i.contract with
      | none => rw [groupByContract, hc] at hgs; exact absurd hgs (by simp)
      | some cid =>
          rw [groupByContract, hc] at hgs
          have ih := groupByContract_keys_mem rest (pushGroup acc cid i) gs hgs c
          rw [ih, mem_keys_pushGroup]
          simp [hc]
          constructor
          · rintro ((h | rfl) | h)
            · exact Or.inl h
            · exact Or.inr (Or.inl rfl)
            · exact Or.inr (Or.inr h)
          · rintro (h | h | h)
            · exact Or.inl (Or.inl h)
            · exact Or.inl (Or.inr h)
            · exact Or.inr h

theorem groupByContract_lookup_some :
    ∀ (invs : List RgbInvoice) (acc gs : List (ContractId × List RgbInvoice)),
      groupByContract invs acc = .ok gs →
      ∀ (c : ContractId) (l0 : List RgbInvoice), lookupGroup acc c = some l0 →
        lookupGroup gs c =
          some (l0 ++ invs.filter (fun i => i.contract == some c))
  | [], acc, gs, hgs, c, l0, hl0 => by
      injection hgs with h
      subst h
      simpa using hl0
  | i :: rest, acc, gs, hgs, c, l0, hl0 => by
      cases hc : i.contract with
      | none => rw [groupByContract, hc] at hgs; exact absurd hgs (by simp)
      | some cid =>
          rw [groupByContract, hc] at hgs
          by_cases hcc : c = cid
          · subst hcc
            have hpush : lookupGroup (pushGroup acc c i) c = some (l0 ++ [i]) := by
              rw [lookupGroup_pushGroup, if_pos rfl, hl0]
              rfl
            have ih := groupByContract_lookup_some rest (pushGroup acc c i) gs
              hgs c (l0 ++ [i]) hpush
            rw [ih, List.filter_cons_of_pos (by simp [hc])]
            simp
          · have hpush : lookupGroup (pushGroup acc cid i) c = some l0 := by
              rw [lookupGroup_pushGroup, if_neg hcc]
              exact hl0
            have ih := groupByContract_lookup_some rest (pushGroup acc cid i) gs
              hgs c l0 hpush
            rw [ih, List.filter_cons_of_neg (by simp [hc]; exact Ne.symm hcc)]

theorem groupByContract_lookup_new :
    ∀ (invs : List RgbInvoice) (acc gs : List (ContractId × List RgbInvoice)),
      groupByContract invs acc = .ok gs →
      ∀ c : ContractId, lookupGroup acc c = none →
        some c ∈ invs.map (fun i => i.contract) →
        lookupGroup gs c =
          some (invs.filter (fun i => i.contract == some c))
  | [], acc, gs, hgs, c, hl0, hmem => by simp at hmem
  | i :: rest, acc, gs, hgs, c, hl0, hmem => by
      cases hc : i.contract with
      | none => rw [groupByContract, hc] at hgs; exact absurd hgs (by simp)
      | some cid =>
          rw [groupByContract, hc] at hgs
          by_cases hcc : c = cid
          · subst hcc
            have hpush : lookupGroup (pushGroup acc c i) c = some [i] := by
              rw [lookupGroup_pushGroup, if_pos rfl, hl0]
              rfl
            have ih := groupByContract_lookup_some rest (pushGroup acc c i) gs
              hgs c [i] hpush
            rw [ih, List.filter_cons_of_pos (by simp [hc])]
            simp
          · have hpush : lookupGroup (pushGroup acc cid i) c = none := by
              rw [lookupGroup_pushGroup, if_neg hcc]
              exact hl0
            have hmem' : some c ∈ rest.map (fun i => i.contract) := by
              rcases List.mem_map.mp hmem with ⟨j, hj, hjc⟩
              rcases List.mem_cons.mp hj with rfl | hjr
              · rw [hc] at hjc
                injection hjc with hcc'
                exact absurd hcc'.symm hcc
              · exact List.mem_map.mpr ⟨j, hjr, hjc⟩
            have ih := groupByContract_lookup_new rest (pushGroup acc cid i) gs
              hgs c hpush hmem'
            rw [ih, List.filter_cons_of_neg (by simp [hc]; exact Ne.symm hcc)]

theorem resolveBeneficiaries_ok (method : Method) (txid : Txid)
    (outs : List Output) :
    ∀ invs : List RgbInvoice,
      (∀ i ∈ invs, witnessScriptPresent outs i = true) →
      resolveBeneficiaries method txid outs invs =
        .ok (specWitnessSeals method txid outs invs, specBlindedSeals invs)
  | [], _ => rfl
  | i :: rest, h => by
      have hrest := resolveBeneficiaries_ok method txid outs rest
        (fun j hj => h j (by simp [hj]))
      cases hb : i.beneficiary with
      | witnessVout addr =>
          have hp := h i (by simp)
          simp only [witnessScriptPresent, hb] at hp
          cases hpos : positionOfScript outs (scriptPubkey addr) with
          | none => rw [hpos] at hp; simp at hp
          | some v =>
              simp [resolveBeneficiaries, hb, hpos, hrest,
                specWitnessSeals, specBlindedSeals, Except.map]
      | blindedSeal s =>
          simp [resolveBeneficiaries, hb, hrest,
            specWitnessSeals, specBlindedSeals, Except.map]

theorem resolveBeneficiaries_error_shape (method : Method) (txid : Txid)
    (outs : List Output) :
    ∀ (invs : List RgbInvoice) (e : CompletionError),
      resolveBeneficiaries method txid outs invs = .error e →
      e = .noBeneficiaryOutput
  | [], e, h => by simp [resolveBeneficiaries] at h
  | i :: rest, e, h => by
      rw [resolveBeneficiaries] at h
      cases hb : i.beneficiary with
      | witnessVout addr =>
          simp only [hb] at h
          cases hpos : positionOfScript outs (scriptPubkey addr) with
          | none =>
              simp only [hpos] at h
              injection h with h'
              exact h'.symm
          | some v =>
              simp only [hpos] at h
              cases hr : resolveBeneficiaries method txid outs rest with
              | error e' =>
                  simp only [hr, Except.map] at h
                  injection h with h'
                  exact h' ▸ resolveBeneficiaries_error_shape method txid outs
                    rest e' hr
              | ok p => simp [hr, Except.map] at h
      | blindedSeal s =>
          simp only [hb] at h
          cases hr : resolveBeneficiaries method txid outs rest with
          | error e' =>
              simp only [hr, Except.map] at h
              injection h with h'
              exact h' ▸ resolveBeneficiaries_error_shape method txid outs
                rest e' hr
          | ok p => simp [hr, Except.map] at h

theorem resolveBeneficiaries_err_of_missing (method : Method) (txid : Txid)
    (outs : List Output) :
    ∀ invs : List RgbInvoice,
      (∃ i ∈ invs, witnessScriptPresent outs i = false) →
      resolveBeneficiaries method txid outs invs =
        .error .noBeneficiaryOutput
  | [], h => by simp at h
  | i :: rest, h => by
      rw [resolveBeneficiaries]
      cases hb : i.beneficiary with
      | witnessVout addr =>
          cases hpos : positionOfScript outs (scriptPubkey addr) with
          | none => simp [hpos]
          | some v =>
              have hmiss : ∃ j ∈ rest, witnessScriptPresent outs j = false := by
                rcases h with ⟨j, hj, hjf⟩
                rcases List.mem_cons.mp hj with rfl | hjr
                · simp [witnessScriptPresent, hb, hpos] at hjf
                · exact ⟨j, hjr, hjf⟩
              simp [hpos,
                resolveBeneficiaries_err_of_missing method txid outs rest hmiss,
                Except.map]
      | blindedSeal s =>
          have hmiss : ∃ j ∈ rest, witnessScriptPresent outs j = false := by
            rcases h with ⟨j, hj, hjf⟩
            rcases List.mem_cons.mp hj with rfl | hjr
            · simp [witnessScriptPresent, hb] at hjf
            · exact ⟨j, hjr, hjf⟩
          simp [resolveBeneficiaries_err_of_missing method txid outs rest hmiss,
            Except.map]

theorem emitTransfers_ok (method : Method) (txid : Txid) (outs : List Output) :
    ∀ gs : List (ContractId × List RgbInvoice),
      (∀ g ∈ gs, ∀ i ∈ g.2, witnessScriptPresent outs i = true) →
      emitTransfers method txid outs gs =
        .ok (gs.map (fun g =>
          ⟨g.1, specWitnessSeals method txid outs g.2, specBlindedSeals g.2⟩))
  | [], _ => rfl
  | g :: gs, h => by
      have hg := resolveBeneficiaries_ok method txid outs g.2
        (h g (by simp))
      have hrest := emitTransfers_ok method txid outs gs
        (fun g' hg' => h g' (by simp [hg']))
      rw [emitTransfers, transferOfGroup, hg, hrest]
      rfl

theorem emitTransfers_err (method : Method) (txid : Txid) (outs : List Output) :
    ∀ gs : List (ContractId × List RgbInvoice), ∀ g ∈ gs,
      resolveBeneficiaries method txid outs g.2 = .error .noBeneficiaryOutput →
      emitTransfers method txid outs gs = .error .noBeneficiaryOutput
  | g0 :: gs, g, hmem, herr => by
      rw [emitTransfers, transferOfGroup]
      cases hr : resolveBeneficiaries method txid outs g0.2 with
      | error e =>
          rw [resolveBeneficiaries_error_shape method txid outs g0.2 e hr]
          rfl
      | ok p =>
          rcases List.mem_cons.mp hmem with rfl | hgs
          · rw [hr] at herr
            exact absurd herr (by simp)
          · rw [emitTransfers_err method txid outs gs g hgs herr]
            rfl

/-- C6: Transfer grouping: for every invoice list whose contract ids are
all present, finalization emits exactly one `Transfer` per distinct
contract id (the artifact contract ids are duplicate-free and are exactly
the invoices' contract ids), and each artifact contains exactly that
contract's beneficiaries — each witness-output beneficiary resolved to the
seal (finalized txid, index of the first finalized output whose script
equals the beneficiary's script), each blinded-seal beneficiary passed
through unchanged; when some witness beneficiary has no matching output,
finalization fails with `NoBeneficiaryOutput`. -/
theorem C6_transfer_grouping (method : Method) (txid : Txid)
    (outs : List Output) (invoices : List RgbInvoice)
    (hc : ∀ i ∈ invoices, i.contract ≠ none) :
    ((∀ i ∈ invoices, witnessScriptPresent outs i = true) →
      ∃ ts, transferArtifacts method txid outs invoices = .ok ts ∧
        (ts.map (fun t => t.contract_id)).Nodup ∧
        (∀ c, c ∈ ts.map (fun t => t.contract_id) ↔
          some c ∈ invoices.map (fun i => i.contract)) ∧
        (∀ t ∈ ts,
          t.witness_seals = specWitnessSeals method txid outs
            (invoices.filter (fun i => i.contract == some t.contract_id)) ∧
          t.blinded_seals = specBlindedSeals
            (invoices.filter (fun i => i.contract == some t.contract_id)))) ∧
    ((∃ i ∈ invoices, witnessScriptPresent outs i = false) →
      transferArtifacts method txid outs invoices =
        .error .noBeneficiaryOutput) := by
  obtain ⟨gs, hgs⟩ := groupByContract_isOk invoices [] hc
  have hnodup : (gs.map Prod.fst).Nodup :=
    groupByContract_keys_nodup invoices [] gs hgs (by simp)
  have hkeys := groupByContract_keys_mem invoices [] gs hgs
  have hval : ∀ g ∈ gs,
      g.2 = invoices.filter (fun i => i.contract == some g.1) := by
    intro g hg
    have hkg : g.1 ∈ gs.map Prod.fst := List.mem_map.mpr ⟨g, hg, rfl⟩
    have hmemc : some g.1 ∈ invoices.map (fun i => i.contract) := by
      have := (hkeys g.1).mp hkg
      simpa using this
    have hlook := groupByContract_lookup_new invoices [] gs hgs g.1 rfl hmemc
    have hlook2 : lookupGroup gs g.1 = some g.2 :=
      lookupGroup_of_mem gs g.1 g.2 (by simpa using hg) hnodup
    rw [hlook] at hlook2
    injection hlook2 with h'
    exact h'.symm
  have hsub : ∀ g ∈ gs, ∀ i ∈ g.2, i ∈ invoices := by
    intro g hg i hi
    rw [hval g hg] at hi
    exact (List.mem_filter.mp hi).1
  constructor
  · intro hw
    have hemit := emitTransfers_ok method txid outs gs
      (fun g hg i hi => hw i (hsub g hg i hi))
    refine ⟨gs.map (fun g =>
      ⟨g.1, specWitnessSeals method txid outs g.2, specBlindedSeals g.2⟩),
      ?_, ?_, ?_, ?_⟩
    · simp only [transferArtifacts, hgs]
      exact hemit
    · have hmapid : (gs.map (fun g => (⟨g.1,
          specWitnessSeals method txid outs g.2,
          specBlindedSeals g.2⟩ : Transfer))).map (fun t => t.contract_id) =
          gs.map Prod.fst := by
        simp [List.map_map, Function.comp]
      rw [hmapid]
      exact hnodup
    · intro c
      have hmapid : (gs.map (fun g => (⟨g.1,
          specWitnessSeals method txid outs g.2,
          specBlindedSeals g.2⟩ : Transfer))).map (fun t => t.contract_id) =
          gs.map Prod.fst := by
        simp [List.map_map, Function.comp]
      rw [hmapid, hkeys c]
      simp
    · intro t ht
      rcases List.mem_map.mp ht with ⟨g, hg, rfl⟩
      constructor
      · show specWitnessSeals method txid outs g.2 = _
        rw [hval g hg]
      · show specBlindedSeals g.2 = _
        rw [hval g hg]
  · rintro ⟨i, hi, hmiss⟩
    obtain ⟨cid, hcid⟩ : ∃ cid, i.contract = some cid := by
      cases hic : i.contract with
      | none => exact absurd hic (hc i hi)
      | some cid => exact ⟨cid, rfl⟩
    have hkc : cid ∈ gs.map Prod.fst := by
      rw [hkeys cid]
      simp only [List.map_nil]
      right
      exact List.mem_map.mpr ⟨i, hi, hcid⟩
    obtain ⟨g, hg, hgfst⟩ := List.mem_map.mp hkc
    have himem : i ∈ g.2 := by
      rw [hval g hg]
      exact List.mem_filter.mpr ⟨hi, by simp [hcid, hgfst]⟩
    have herr := resolveBeneficiaries_err_of_missing method txid outs g.2
      ⟨i, himem, hmiss⟩
    have hfin := emitTransfers_err method txid outs gs g hg herr
    simp only [transferArtifacts, hgs]
    exact hfin

/-- Witness for C6 at Scenario C of the spec: two invoices for the same
contract with distinct witness-output beneficiaries yield one `Transfer`
for that contract containing both resolved beneficiaries. -/
theorem C6_transfer_grouping_witness :
    (∀ i ∈ [(⟨some 1, some 1, none, none, .amount 5, .witnessVout 3, none⟩ :
        RgbInvoice),
        ⟨some 1, some 1, none, none, .amount 5, .witnessVout 4, none⟩],
      i.contract ≠ none) ∧
    (∃ ts, transferArtifacts .tapretFirst 99
        [⟨⟨true, 3⟩, 600, false, false⟩, ⟨⟨true, 4⟩, 600, false, false⟩]
        [⟨some 1, some 1, none, none, .amount 5, .witnessVout 3, none⟩,
         ⟨some 1, some 1, none, none, .amount 5, .witnessVout 4, none⟩] =
        .ok ts ∧
      (ts.map (fun t => t.contract_id)).Nodup) ∧
    transferArtifacts .tapretFirst 99
        [⟨⟨true, 3⟩, 600, false, false⟩, ⟨⟨true, 4⟩, 600, false, false⟩]
        [⟨some 1, some 1, none, none, .amount 5, .witnessVout 3, none⟩,
         ⟨some 1, some 1, none, none, .amount 5, .witnessVout 4, none⟩] =
      .ok [⟨1, [⟨.tapretFirst, 99, 0⟩, ⟨.tapretFirst, 99, 1⟩], []⟩] :=
  ⟨by decide,
   (by
      obtain ⟨ts, h1, h2, _⟩ :=
        (C6_transfer_grouping .tapretFirst 99
          [⟨⟨true, 3⟩, 600, false, false⟩, ⟨⟨true, 4⟩, 600, false, false⟩]
          [⟨some 1, some 1, none, none, .amount 5, .witnessVout 3, none⟩,
           ⟨some 1, some 1, none, none, .amount 5, .witnessVout 4, none⟩]
          (by decide)).1 (by decide)
      exact ⟨ts, h1, h2⟩),
   rfl⟩

end RgbCore
